import Mathlib

/-!
Shallow embedding of `notes.py`: pitch classes (`Note`), absolute pitches
(`Pitch`), scales (`Scale`) and the scale-matching search, together with
proofs of the specified properties.

Python integers are modelled as `Int`; Python `%` on a positive modulus
agrees with `Int.emod` (the `%` of Lean's `Int`), and Python `//` is floor
division, `Int.fdiv`.  Python strings are modelled as Lean `String`
(both compare by Unicode code points).
-/

namespace NotesPy

/-- `Note` (the spec's PitchClass): an element of Z/12Z.  The Python class
stores `value % 12`, always in `[0, 12)`, which we carry as a `Fin 12`. -/
structure Note where
  val : Fin 12
  deriving DecidableEq, Repr

instance : Fintype Note :=
  Fintype.ofEquiv (Fin 12) ⟨Note.mk, Note.val, fun _ => rfl, fun _ => rfl⟩

/-- `int(note)`: the stored (reduced) value. -/
def Note.toInt (n : Note) : Int := (n.val.val : Int)

/-- `Note.__init__`: reduce the value modulo `len(NOTES) = 12`. -/
def Note.ofInt (v : Int) : Note :=
  ⟨⟨(v % 12).toNat, by
    have h1 : 0 ≤ v % 12 := Int.emod_nonneg v (by norm_num)
    have h2 : v % 12 < 12 := Int.emod_lt_of_pos v (by norm_num)
    omega⟩⟩

instance : Inhabited Note := ⟨Note.ofInt 0⟩

/-- `Note.NOTES`. -/
def Note.NOTES : List String :=
  ["C", "Db", "D", "Eb", "E", "F", "Gb", "G", "Ab", "A", "Bb", "B"]

/-- `Note.__str__`: `self.NOTES[int(self)].replace('b', '♭')`.
Replacing the single character `'b'` is the character-wise map below. -/
def Note.str (n : Note) : String :=
  ⟨((Note.NOTES.getD n.val.val "").data).map fun c => if c = 'b' then '♭' else c⟩

/-- `Note.__add__` with an `int` argument. -/
def Note.add (n : Note) (other : Int) : Note := Note.ofInt (n.toInt + other)

/-- `Note.__sub__` with an `int` argument. -/
def Note.subInt (n : Note) (other : Int) : Note := Note.ofInt (n.toInt - other)

/-- `Note.__sub__` with a `Note` argument: `(int(self) - int(other)) % 12`. -/
def Note.subNote (n other : Note) : Int := (n.toInt - other.toInt) % 12

/-- The character class `[A-Ga-g]` of `Note.NOTE_PATTERN`. -/
def isNoteLetter (c : Char) : Bool :=
  ('A' ≤ c && c ≤ 'G') || ('a' ≤ c && c ≤ 'g')

/-- `Note.from_str`: match `^([A-Ga-g])([#b]?)$`, look the upper-cased
letter up in `NOTES`, then shift by the accidental. -/
def Note.from_str (s : String) : Option Note :=
  match s.data with
  | [c] =>
    if isNoteLetter c then
      some (Note.ofInt (Note.NOTES.indexOf (String.singleton c.toUpper) : Int))
    else none
  | [c, m] =>
    if isNoteLetter c then
      let value : Int := (Note.NOTES.indexOf (String.singleton c.toUpper) : Int)
      if m = '#' then some (Note.ofInt (value + 1))
      else if m = 'b' then some (Note.ofInt (value - 1))
      else none
    else none
  | _ => none

/-- Module-level `A = Note(-3)`. -/
def A : Note := Note.ofInt (-3)

/-- `iter_notes(start)`: the 12 notes `start + 0 .. start + 11`. -/
def iter_notes (start : Note) : List Note :=
  (List.range 12).map fun semitons => start.add (semitons : Int)

/-- `OCTAVE = len(Note.NOTES)`. -/
def OCTAVE : Int := (Note.NOTES.length : Int)

/-- `Pitch`: a note with octave information; stores the unbounded value
`int(note) + octave * OCTAVE`. -/
structure Pitch where
  val : Int
  deriving DecidableEq, Repr

/-- `Pitch.__init__(note, octave)`. -/
def Pitch.ofNote (note : Note) (octave : Int) : Pitch :=
  ⟨note.toInt + octave * OCTAVE⟩

/-- `Pitch.note`: `Note(int(self))`. -/
def Pitch.note (p : Pitch) : Note := Note.ofInt p.val

/-- `Pitch.octave`: `int(self) // OCTAVE` (Python floor division). -/
def Pitch.octave (p : Pitch) : Int := Int.fdiv p.val OCTAVE

/-- `Pitch.__add__` with an `int`. -/
def Pitch.addInt (p : Pitch) (other : Int) : Pitch := ⟨p.val + other⟩

/-- `Pitch.__sub__` with an `int`. -/
def Pitch.subInt (p : Pitch) (other : Int) : Pitch := ⟨p.val - other⟩

/-- `Pitch.__sub__` with a `Pitch`: `int(self) - int(other)`, signed. -/
def Pitch.subPitch (p other : Pitch) : Int := p.val - other.val

/-- `Pitch.from_note(note, octave)`: `Pitch(int(note) + octave * OCTAVE)`;
the inner constructor adds `octave=0`, so the stored value is as below. -/
def Pitch.from_note (note : Note) (octave : Int) : Pitch :=
  ⟨note.toInt + octave * OCTAVE⟩

/-- Decimal value of a digit string (`int()` on a matched `\d+` group). -/
def digitsToNat (ds : List Char) : Nat :=
  ds.foldl (fun a c => 10 * a + (c.toNat - 48)) 0

/-- The octave group `(-?\d+)?` of `Pitch.PITCH`, applied to the characters
remaining after the note group; an absent group parses as octave `0`. -/
def parseOctave (cs : List Char) : Option Int :=
  match cs with
  | [] => some 0
  | c :: rest =>
    if c = '-' then
      if rest ≠ [] ∧ rest.all Char.isDigit then
        some (-(digitsToNat rest : Int))
      else none
    else
      if (c :: rest).all Char.isDigit then
        some ((digitsToNat (c :: rest) : Int))
      else none

/-- Split of `Pitch.PITCH` after the leading letter `c`: the accidental
group takes a following `#`/`b` greedily (backtracking can never help,
since `#`/`b` cannot start the octave group), the octave group gets the
remaining characters. -/
def noteSplit (c : Char) (rest : List Char) : List Char × List Char :=
  match rest with
  | m :: rest2 => if m = '#' ∨ m = 'b' then ([c, m], rest2) else ([c], rest)
  | [] => ([c], [])

/-- `Pitch.from_str`: match `^(note)(-?\d+)?$`, parse the note group with
`Note.from_str` and build `Pitch.from_note(note, octave)`. -/
def Pitch.from_str (s : String) : Option Pitch :=
  match s.data with
  | [] => none
  | c :: rest =>
    if isNoteLetter c then
      match parseOctave (noteSplit c rest).2 with
      | some octave =>
        (Note.from_str ⟨(noteSplit c rest).1⟩).map fun note =>
          Pitch.from_note note octave
      | none => none
    else none

/-- Python `str` of an `int`, as used by the f-strings in `notes.py`;
identical to Lean's `ToString Int` instance. -/
def intRepr : Int → String
  | Int.ofNat m => Nat.repr m
  | Int.negSucc m => "-" ++ Nat.repr (m + 1)

/-- `Pitch.__str__`: `f"{self.note}{self.octave}"`. -/
def Pitch.str (p : Pitch) : String := p.note.str ++ intRepr p.octave

/-- `Pitch.midi`: `int(self) + 12`. -/
def Pitch.midi (p : Pitch) : Int := p.val + 12

/-- Scale modes: the Python strings `"maj"` and `"min"`. -/
inductive Mode
  | maj
  | min
  deriving DecidableEq, Repr

instance : Fintype Mode :=
  ⟨{Mode.maj, Mode.min}, by intro x; cases x <;> simp⟩

/-- `str` of the mode, as interpolated by `Scale.__str__`. -/
def Mode.str : Mode → String
  | .maj => "maj"
  | .min => "min"

/-- `Scale`: a root note and a mode. -/
structure Scale where
  note : Note
  mode : Mode
  deriving DecidableEq, Repr

/-- `Scale.TONES`. -/
def Scale.TONES : Mode → List Int
  | .maj => [2, 2, 1, 2, 2, 2, 1]
  | .min => [2, 1, 2, 2, 1, 3, 1]

/-- `Scale.TRAKTOR_START`: `{"min": Note.from_str("A"), "maj": Note.from_str("C")}`
(`Note.from_str "A" = some (Note.ofInt 9)` and `Note.from_str "C" = some (Note.ofInt 0)`,
both by `rfl`). -/
def Scale.TRAKTOR_START : Mode → Note
  | .min => Note.ofInt 9
  | .maj => Note.ofInt 0

/-- `Scale.__str__`: `f"{self.note}{self.mode}"`. -/
def Scale.str (sc : Scale) : String := sc.note.str ++ sc.mode.str

/-- Root of `Scale.from_traktor` for a matched index `n` (the integer value
of the 1–2 digit group) and mode: `Note(int(TRAKTOR_START[mode]) + 7 * (n - 1))`. -/
def Scale.from_traktor_root (n : Nat) (mode : Mode) : Note :=
  Note.ofInt ((Scale.TRAKTOR_START mode).toInt + 7 * ((n : Int) - 1))

/-- The mode glyph group `(m|d)` of `Scale.TRAKTOR_RE`. -/
def parseGlyph (g : Char) : Option Mode :=
  if g = 'm' then some Mode.min else if g = 'd' then some Mode.maj else none

/-- `Scale.from_traktor`: match `^(\d{1,2})(m|d)$`. -/
def Scale.from_traktor (s : String) : Option Scale :=
  match s.data with
  | [d, g] =>
    if d.isDigit then
      (parseGlyph g).map fun mode => ⟨Scale.from_traktor_root (digitsToNat [d]) mode, mode⟩
    else none
  | [d1, d2, g] =>
    if d1.isDigit && d2.isDigit then
      (parseGlyph g).map fun mode => ⟨Scale.from_traktor_root (digitsToNat [d1, d2]) mode, mode⟩
    else none
  | _ => none

/-- `Scale.traktor`: the hardware-notation string
`str((7 * (int(self.note) - int(TRAKTOR_START[self.mode]))) % 12 + 1)`
followed by the mode glyph. -/
def Scale.traktor (sc : Scale) : String :=
  let glyph : String := match sc.mode with | .min => "m" | .maj => "d"
  let note : Int := (7 * (sc.note.toInt - (Scale.TRAKTOR_START sc.mode).toInt)) % 12 + 1
  intRepr note ++ glyph

/-- `Scale.notes`: start from the root and accumulate the first six steps
(`TONES[mode][:-1]`) of the interval pattern, appending `notes[-1] + delta`. -/
def Scale.notesList (sc : Scale) : List Note :=
  (Scale.TONES sc.mode).dropLast.foldl
    (fun notes delta => notes ++ [(notes.getLastD sc.note).add delta]) [sc.note]

/-- `iter_scales(start, mode)`: for each of the 12 notes, yield a scale per
mode, `['min', 'maj']` when no mode is given. -/
def iter_scales (start : Note) (mode : Option Mode) : List Scale :=
  let modes : List Mode := match mode with
    | none => [.min, .maj]
    | some m => [m]
  (iter_notes start).flatMap fun note => modes.map fun m => Scale.mk note m

/-- The list `commons` of `scales_with`: for each scale of the universe, its
notes that belong to the (deduplicated-set view of the) input. -/
def scales_with_commons (notes : List Note) : List (List Note) :=
  (iter_scales A none).map fun scale =>
    scale.notesList.filter fun note => decide (note ∈ notes)

/-- The `perfect=True` branch of `scales_with`:
`[scale for scale, commons in zip(scales, commons) if len(commons) == len(set(notes))]`. -/
def scales_with_perfect (notes : List Note) : List Scale :=
  ((iter_scales A none).zip (scales_with_commons notes)).filterMap fun p =>
    if p.2.length = notes.dedup.length then some p.1 else none

/-- The Python sort key `_sort_key`: `(len(common), str(scale))`. -/
def rankKey (p : List Note × Scale) : Nat × String := (p.1.length, Scale.str p.2)

/-- Code-point comparison of strings, as Python compares them. -/
def strLe : List Char → List Char → Bool
  | [], _ => true
  | _ :: _, [] => false
  | a :: as, b :: bs =>
    a.toNat < b.toNat || (a.toNat = b.toNat && strLe as bs)

/-- Ascending lexicographic order on the sort keys. -/
def keyLe (x y : Nat × String) : Prop :=
  x.1 < y.1 ∨ (x.1 = y.1 ∧ strLe x.2.data y.2.data = true)

instance : DecidableRel keyLe := fun x y => by
  unfold keyLe; infer_instance

/-- The order used by `sorted(..., key=_sort_key, reverse=True)`: `a` may
come before `b` iff the key of `b` is `≤` the key of `a`.  A stable
insertion sort with this non-strict relation is exactly CPython's stable
reverse sort (ties on the full key keep their original order). -/
def rankGe (a b : List Note × Scale) : Prop := keyLe (rankKey b) (rankKey a)

instance : DecidableRel rankGe := fun a b => by
  unfold rankGe; infer_instance

/-- The `perfect=False` branch of `scales_with`:
`sorted(zip(commons, scales), key=_sort_key, reverse=True)`. -/
def scales_with_ranked (notes : List Note) : List (List Note × Scale) :=
  List.insertionSort rankGe ((scales_with_commons notes).zip (iter_scales A none))

/-- The Python values a `Note` can be compared against in `_BaseInt.__eq__`:
an `int`, another `Note` (`self.__class__`), or a value of some other type
(exemplified by a string, as in the spec's example). -/
inductive PyVal
  | pyInt (n : Int)
  | pyNote (n : Note)
  | pyStr (s : String)
  deriving DecidableEq

/-- `_BaseInt.__eq__` as inherited by `Note`: if `other` is an `int` or a
`Note`, compare `int(self) == int(other)` (the raw integer is NOT reduced);
otherwise raise `TypeError`. -/
def Note.eqPy (a : Note) (other : PyVal) : Except String Bool :=
  match other with
  | .pyInt k => .ok (decide (a.toInt = k))
  | .pyNote b => .ok (decide (a.toInt = b.toInt))
  | .pyStr _ => .error "TypeError"

/-- Spec-side classification: the white-key (natural) pitch classes, whose
canonical `NOTES` name has no flat. -/
def naturalNote (n : Note) : Bool :=
  decide (n.val.val ∈ [0, 2, 4, 5, 7, 9, 11])

/-- Reference decimal digit list of a natural number, by division from the
left; provably equal to `Nat.toDigits 10` (which threads explicit fuel). -/
def repChars (n : Nat) : List Char :=
  if _h : n < 10 then [Nat.digitChar n]
  else repChars (n / 10) ++ [Nat.digitChar (n % 10)]
decreasing_by exact Nat.div_lt_self (by omega) (by omega)

/-! ## Theorems -/

theorem note_toInt_inj : ∀ a b : Note, a.toInt = b.toInt ↔ a = b := by decide

/-- C5: subtracting one `Note` (pitch class) from another returns the
non-negative integer `(value - other.value) % 12`, always in `[0, 12)`,
while subtracting one `Pitch` from another returns the signed, unreduced
difference `value - other.value`. -/
theorem C5_subtraction_semantics :
    (∀ a b : Note, Note.subNote a b = (a.toInt - b.toInt) % 12 ∧
      0 ≤ Note.subNote a b ∧ Note.subNote a b < 12) ∧
    (∀ p q : Pitch, Pitch.subPitch p q = p.val - q.val) := by
  refine ⟨fun a b => ⟨rfl, ?_, ?_⟩, fun p q => rfl⟩
  · exact Int.emod_nonneg _ (by norm_num)
  · exact Int.emod_lt_of_pos _ (by norm_num)

/-- C8: `Pitch.octave` is the floor division `value // 12` (so value `-1`
has octave `-1`), `Pitch.note` carries `value mod 12`, and
`note + 12 * octave` reconstructs the stored value for every integer. -/
theorem C8_pitch_decomposition :
    (∀ p : Pitch, p.octave = Int.fdiv p.val 12 ∧
      p.note.toInt = p.val % 12 ∧
      p.note.toInt + 12 * p.octave = p.val) ∧
    (Pitch.mk (-1)).octave = -1 := by
  have hnote : ∀ p : Pitch, p.note.toInt = p.val % 12 := by
    intro p
    show ((p.val % 12).toNat : Int) = p.val % 12
    exact Int.toNat_of_nonneg (Int.emod_nonneg _ (by norm_num))
  refine ⟨fun p => ⟨rfl, hnote p, ?_⟩, by decide⟩
  rw [hnote p]
  show p.val % 12 + 12 * Int.fdiv p.val OCTAVE = p.val
  have hoct : (OCTAVE : Int) = 12 := rfl
  rw [hoct, Int.fdiv_eq_ediv _ (by norm_num)]
  exact Int.emod_add_ediv p.val 12

/-- C6 counterexample: `Note(0) == 12` returns `False` in the code even
though the reduced (mod-12) values of both operands match, refuting the
claim that comparison with a plain integer is by reduced value. -/
theorem C6_counterexample :
    Note.eqPy (Note.ofInt 0) (PyVal.pyInt 12) = Except.ok false ∧
    (12 : Int) % 12 = (Note.ofInt 0).toInt := ⟨rfl, rfl⟩

/-- C6 (amended): two `Note`s compare equal iff their reduced values match;
a `Note` and a plain integer compare equal iff the reduced value equals the
integer exactly as given (the integer is not reduced); comparing against a
value of any other type raises `TypeError` instead of returning `False`. -/
theorem C6_eq_semantics :
    (∀ a b : Note, Note.eqPy a (PyVal.pyNote b) = Except.ok true ↔ a = b) ∧
    (∀ a : Note, ∀ k : Int,
      Note.eqPy a (PyVal.pyInt k) = Except.ok true ↔ a.toInt = k) ∧
    (∀ a : Note, ∀ s : String,
      Note.eqPy a (PyVal.pyStr s) = Except.error "TypeError") := by
  refine ⟨fun a b => ?_, fun a k => ?_, fun a s => rfl⟩
  · rw [← note_toInt_inj a b]
    simp [Note.eqPy]
  · simp [Note.eqPy]

/-- C7: `Scale.notes` starts with the root and accumulates the first six
steps of the mode's interval pattern (major `[2,2,1,2,2,2,1]`, minor
`[2,1,2,2,1,3,1]`), yielding exactly 7 pitch classes; the C-major scale is
`[0, 2, 4, 5, 7, 9, 11]`. -/
theorem C7_scale_notes :
    Scale.TONES Mode.maj = [2, 2, 1, 2, 2, 2, 1] ∧
    Scale.TONES Mode.min = [2, 1, 2, 2, 1, 3, 1] ∧
    (∀ root : Note, ∀ mode : Mode,
      (Scale.mk root mode).notesList.length = 7 ∧
      (Scale.mk root mode).notesList.getD 0 default = root ∧
      ∀ i : Fin 6,
        (Scale.mk root mode).notesList.getD (i.val + 1) default =
          ((Scale.mk root mode).notesList.getD i.val default).add
            ((Scale.TONES mode).getD i.val 0)) ∧
    (Scale.mk (Note.ofInt 0) Mode.maj).notesList.map Note.toInt =
      [0, 2, 4, 5, 7, 9, 11] := by
  exact ⟨rfl, rfl, by decide, by decide⟩

/-- C10: for every root and both modes, the 7 generated pitch classes are
pairwise distinct, so a scale's notes form a 7-element set. -/
theorem C10_scale_notes_nodup :
    ∀ root : Note, ∀ mode : Mode,
      (Scale.mk root mode).notesList.Nodup ∧
      (Scale.mk root mode).notesList.length = 7 := by decide

/-- C3: for every index `1..12` and both mode glyphs `m` and `d`, parsing
the hardware-notation string and re-serializing it with `Scale.traktor`
returns the original string. -/
theorem C3_traktor_roundtrip :
    ∀ n : Nat, n < 13 → 1 ≤ n →
      (Scale.from_traktor (Nat.repr n ++ "m")).map Scale.traktor =
        some (Nat.repr n ++ "m") ∧
      (Scale.from_traktor (Nat.repr n ++ "d")).map Scale.traktor =
        some (Nat.repr n ++ "d") := by decide

/-- C3 witness: the round trip at the concrete input `"1m"`. -/
theorem C3_traktor_roundtrip_witness :
    (Scale.from_traktor "1m").map Scale.traktor = some "1m" :=
  (C3_traktor_roundtrip 1 (by norm_num) (by norm_num)).1

/-- C9: `Scale.from_traktor` accepts every 1- or 2-digit index, reducing
the root modulo 12 (`"13m"` parses to the very scale of `"1m"`), and for
out-of-range indices (`0` or `13..99`) the `traktor` round trip does not
return the original string. -/
theorem C9_traktor_lenient :
    (∀ n : Nat, n < 100 →
      (Scale.from_traktor (Nat.repr n ++ "m")).isSome = true ∧
      (Scale.from_traktor (Nat.repr n ++ "d")).isSome = true ∧
      ((n = 0 ∨ 13 ≤ n) →
        (Scale.from_traktor (Nat.repr n ++ "m")).map Scale.traktor ≠
          some (Nat.repr n ++ "m") ∧
        (Scale.from_traktor (Nat.repr n ++ "d")).map Scale.traktor ≠
          some (Nat.repr n ++ "d"))) ∧
    Scale.from_traktor "13m" = Scale.from_traktor "1m" :=
  ⟨by decide, by decide⟩

/-- C9 witness: at the concrete out-of-range input `"13m"` the parse
succeeds but the round trip differs from the original string. -/
theorem C9_traktor_lenient_witness :
    (Scale.from_traktor "13m").isSome = true ∧
    (Scale.from_traktor "13m").map Scale.traktor ≠ some "13m" := by
  have h := C9_traktor_lenient.1 13 (by norm_num)
  exact ⟨h.1, (h.2.2 (Or.inr (by norm_num))).1⟩

theorem zip_map_filterMap (l : List Scale) (f : Scale → List Note)
    (cond : List Note → Prop) [DecidablePred cond] :
    ((l.zip (l.map f)).filterMap fun p => if cond p.2 then some p.1 else none) =
      l.filter fun sc => decide (cond (f sc)) := by
  induction l with
  | nil => rfl
  | cons a l ih =>
    simp only [List.map_cons, List.zip_cons_cons, List.filterMap_cons,
      List.filter_cons]
    by_cases h : cond (f a)
    · simp [h, ih]
    · simp [h, ih]

theorem filter_length_eq_dedup_iff (l t : List Note) (hl : l.Nodup) :
    ((l.filter fun n => decide (n ∈ t)).length = t.dedup.length) ↔
      ∀ x ∈ t, x ∈ l := by
  have hfn : (l.filter fun n => decide (n ∈ t)).Nodup := hl.filter _
  have hto : (l.filter fun n => decide (n ∈ t)).toFinset =
      l.toFinset ∩ t.toFinset := by
    ext x
    simp [List.mem_toFinset, List.mem_filter]
  have hlen : (l.filter fun n => decide (n ∈ t)).length =
      (l.toFinset ∩ t.toFinset).card := by
    rw [← List.toFinset_card_of_nodup hfn, hto]
  have hded : t.dedup.length = t.toFinset.card := (List.card_toFinset t).symm
  rw [hlen, hded]
  constructor
  · intro h x hx
    have hsub : l.toFinset ∩ t.toFinset = t.toFinset :=
      Finset.eq_of_subset_of_card_le Finset.inter_subset_right (le_of_eq h.symm)
    exact List.mem_toFinset.mp
      (Finset.inter_eq_right.mp hsub (List.mem_toFinset.mpr hx))
  · intro h
    have hsub : t.toFinset ⊆ l.toFinset := fun x hx =>
      List.mem_toFinset.mpr (h x (List.mem_toFinset.mp hx))
    rw [Finset.inter_eq_right.mpr hsub]

theorem iter_scales_notes_nodup :
    ∀ sc ∈ iter_scales A none, sc.notesList.Nodup := by decide

/-- C4: with `perfect=true`, `scales_with` returns exactly the scales of
the 24-scale universe whose 7 notes contain every target note, in the
fixed enumeration order; for the target `{C, E, G}` the C-major scale is
among them. -/
theorem C4_perfect_matching :
    (∀ notes : List Note,
      scales_with_perfect notes =
        (iter_scales A none).filter fun sc =>
          decide (∀ n ∈ notes, n ∈ sc.notesList)) ∧
    Scale.mk (Note.ofInt 0) Mode.maj ∈
      scales_with_perfect [Note.ofInt 0, Note.ofInt 4, Note.ofInt 7] := by
  constructor
  · intro notes
    rw [scales_with_perfect, scales_with_commons]
    refine (zip_map_filterMap (iter_scales A none)
      (fun scale => scale.notesList.filter fun note => decide (note ∈ notes))
      (fun c => c.length = notes.dedup.length)).trans ?_
    apply List.filter_congr
    intro sc hsc
    exact decide_eq_decide.mpr
      (filter_length_eq_dedup_iff sc.notesList notes
        (iter_scales_notes_nodup sc hsc))
  · decide

theorem strLe_total : ∀ as bs : List Char,
    strLe as bs = true ∨ strLe bs as = true := by
  intro as
  induction as with
  | nil => intro bs; left; rfl
  | cons a as ih =>
    intro bs
    cases bs with
    | nil => right; rfl
    | cons b bs =>
      simp only [strLe, Bool.or_eq_true, Bool.and_eq_true, decide_eq_true_eq]
      rcases Nat.lt_trichotomy a.toNat b.toNat with h | h | h
      · exact Or.inl (Or.inl h)
      · rcases ih bs with hs | hs
        · exact Or.inl (Or.inr ⟨h, hs⟩)
        · exact Or.inr (Or.inr ⟨h.symm, hs⟩)
      · exact Or.inr (Or.inl h)

theorem strLe_trans : ∀ as bs cs : List Char,
    strLe as bs = true → strLe bs cs = true → strLe as cs = true := by
  intro as
  induction as with
  | nil => intro bs cs _ _; rfl
  | cons a as ih =>
    intro bs cs hab hbc
    cases bs with
    | nil => simp [strLe] at hab
    | cons b bs =>
      cases cs with
      | nil => simp [strLe] at hbc
      | cons c cs =>
        simp only [strLe, Bool.or_eq_true, Bool.and_eq_true,
          decide_eq_true_eq] at hab hbc ⊢
        rcases hab with h1 | ⟨h1, h1s⟩ <;> rcases hbc with h2 | ⟨h2, h2s⟩
        · exact Or.inl (by omega)
        · exact Or.inl (by omega)
        · exact Or.inl (by omega)
        · exact Or.inr ⟨by omega, ih bs cs h1s h2s⟩

theorem keyLe_total : ∀ x y : Nat × String, keyLe x y ∨ keyLe y x := by
  intro x y
  rcases Nat.lt_trichotomy x.1 y.1 with h | h | h
  · exact Or.inl (Or.inl h)
  · rcases strLe_total x.2.data y.2.data with hs | hs
    · exact Or.inl (Or.inr ⟨h, hs⟩)
    · exact Or.inr (Or.inr ⟨h.symm, hs⟩)
  · exact Or.inr (Or.inl h)

theorem keyLe_trans : ∀ x y z : Nat × String,
    keyLe x y → keyLe y z → keyLe x z := by
  intro x y z hxy hyz
  rcases hxy with h1 | ⟨h1, h1s⟩ <;> rcases hyz with h2 | ⟨h2, h2s⟩
  · exact Or.inl (by omega)
  · exact Or.inl (by omega)
  · exact Or.inl (by omega)
  · exact Or.inr ⟨by omega, strLe_trans _ _ _ h1s h2s⟩

/-- C2 (amended): with `perfect=false`, `scales_with` returns all 24
`(matched_notes, scale)` pairs, sorted with primary key match-count
descending and ties broken by the scale's formatted name DESCENDING
(CPython's `reverse=True` reverses the whole `(count, name)` key). -/
theorem C2_ranked_sort :
    ∀ notes : List Note,
      (scales_with_ranked notes).length = 24 ∧
      (scales_with_ranked notes).Perm
        ((scales_with_commons notes).zip (iter_scales A none)) ∧
      (scales_with_ranked notes).Sorted fun a b =>
        b.1.length < a.1.length ∨
          (b.1.length = a.1.length ∧
            strLe (Scale.str b.2).data (Scale.str a.2).data = true) := by
  intro notes
  haveI : IsTotal (List Note × Scale) rankGe :=
    ⟨fun a b => keyLe_total (rankKey b) (rankKey a)⟩
  haveI : IsTrans (List Note × Scale) rankGe :=
    ⟨fun a b c hab hbc => keyLe_trans (rankKey c) (rankKey b) (rankKey a) hbc hab⟩
  have hperm := List.perm_insertionSort rankGe
    ((scales_with_commons notes).zip (iter_scales A none))
  have hsor := List.sorted_insertionSort rankGe
    ((scales_with_commons notes).zip (iter_scales A none))
  refine ⟨?_, hperm, hsor⟩
  rw [show scales_with_ranked notes =
      List.insertionSort rankGe
        ((scales_with_commons notes).zip (iter_scales A none)) from rfl,
    hperm.length_eq, List.length_zip, scales_with_commons, List.length_map]
  decide

/-- C2 counterexample: at the empty target set, every match count is 0 and
the code's output is NOT sorted with names ascending among equal counts
(it is sorted with names descending), refuting the claim as stated. -/
theorem C2_counterexample :
    ¬ (scales_with_ranked []).Sorted fun a b =>
        b.1.length < a.1.length ∨
          (b.1.length = a.1.length ∧
            strLe (Scale.str a.2).data (Scale.str b.2).data = true) := by
  decide

theorem digitChar_facts : ∀ d : Nat, d < 10 →
    (Nat.digitChar d).isDigit = true ∧ (Nat.digitChar d).toNat - 48 = d := by
  decide

theorem isDigit_ne (c : Char) (h : c.isDigit = true) :
    c ≠ '-' ∧ c ≠ '#' ∧ c ≠ 'b' := by
  refine ⟨?_, ?_, ?_⟩ <;> rintro rfl <;> exact absurd h (by decide)

theorem repChars_lt (n : Nat) (h : n < 10) : repChars n = [Nat.digitChar n] := by
  rw [repChars]
  simp [h]

theorem repChars_ge (n : Nat) (h : ¬ n < 10) :
    repChars n = repChars (n / 10) ++ [Nat.digitChar (n % 10)] := by
  rw [repChars]
  simp [h]

theorem repChars_ne_nil (n : Nat) : repChars n ≠ [] := by
  by_cases h : n < 10
  · rw [repChars_lt n h]; simp
  · rw [repChars_ge n h]; simp

theorem repChars_all_digit (n : Nat) : (repChars n).all Char.isDigit = true := by
  induction n using Nat.strong_induction_on with
  | _ n ih =>
    by_cases h : n < 10
    · rw [repChars_lt n h]
      simpa using (digitChar_facts n h).1
    · rw [repChars_ge n h, List.all_append]
      have h1 := ih (n / 10) (Nat.div_lt_self (by omega) (by omega))
      have h2 := (digitChar_facts (n % 10) (by omega)).1
      simp [h1, h2]

theorem digitsToNat_append (xs : List Char) (c : Char) :
    digitsToNat (xs ++ [c]) = 10 * digitsToNat xs + (c.toNat - 48) := by
  unfold digitsToNat
  rw [List.foldl_append]
  rfl

theorem digitsToNat_repChars (n : Nat) : digitsToNat (repChars n) = n := by
  induction n using Nat.strong_induction_on with
  | _ n ih =>
    by_cases h : n < 10
    · rw [repChars_lt n h]
      show 10 * 0 + ((Nat.digitChar n).toNat - 48) = n
      have := (digitChar_facts n h).2
      omega
    · rw [repChars_ge n h, digitsToNat_append,
        ih (n / 10) (Nat.div_lt_self (by omega) (by omega))]
      have := (digitChar_facts (n % 10) (by omega)).2
      omega

theorem toDigitsCore_eq_repChars :
    ∀ fuel n ds, n < 10 ^ fuel → 0 < fuel →
      Nat.toDigitsCore 10 fuel n ds = repChars n ++ ds := by
  intro fuel
  induction fuel with
  | zero => intro n ds _ h0; omega
  | succ fuel ih =>
    intro n ds hlt _
    rw [Nat.toDigitsCore]
    by_cases h0 : n / 10 = 0
    · have hn : n < 10 := by omega
      have hmod : n % 10 = n := by omega
      simp only [h0, if_true, hmod]
      rw [repChars_lt n hn]
      rfl
    · have hfuel : 0 < fuel := by
        rcases Nat.eq_zero_or_pos fuel with hf | hf
        · subst hf
          simp at hlt
          omega
        · exact hf
      have hdiv : n / 10 < 10 ^ fuel := by
        rw [Nat.div_lt_iff_lt_mul (by omega)]
        calc n < 10 ^ (fuel + 1) := hlt
        _ = 10 ^ fuel * 10 := by rw [Nat.pow_succ]
      simp only [h0, if_false]
      rw [ih (n / 10) (Nat.digitChar (n % 10) :: ds) hdiv hfuel]
      rw [repChars_ge n (by omega)]
      simp

theorem toDigits_eq_repChars (n : Nat) : Nat.toDigits 10 n = repChars n := by
  have h2 : n < 2 ^ n := Nat.lt_two_pow n
  have h10 : 2 ^ n ≤ 10 ^ n := Nat.pow_le_pow_left (by omega) n
  have hsucc : 10 ^ n ≤ 10 ^ (n + 1) := Nat.pow_le_pow_right (by omega) (Nat.le_succ n)
  have h := toDigitsCore_eq_repChars (n + 1) n [] (by omega) (Nat.succ_pos n)
  rw [Nat.toDigits, h, List.append_nil]

theorem natRepr_data (m : Nat) : (Nat.repr m).data = repChars m := by
  show (Nat.toDigits 10 m) = repChars m
  exact toDigits_eq_repChars m

theorem parseOctave_cons (c : Char) (rest : List Char) :
    parseOctave (c :: rest) =
      if c = '-' then
        if rest ≠ [] ∧ rest.all Char.isDigit then
          some (-(digitsToNat rest : Int))
        else none
      else
        if (c :: rest).all Char.isDigit then
          some ((digitsToNat (c :: rest) : Int))
        else none := rfl

theorem parseOctave_repChars (m : Nat) :
    parseOctave (repChars m) = some (m : Int) := by
  obtain ⟨c, cs, hcs⟩ : ∃ c cs, repChars m = c :: cs := by
    cases hr : repChars m with
    | nil => exact absurd hr (repChars_ne_nil m)
    | cons c cs => exact ⟨c, cs, rfl⟩
  have hall : (c :: cs).all Char.isDigit = true := by
    rw [← hcs]; exact repChars_all_digit m
  have hcd : c.isDigit = true := by
    simp only [List.all_cons, Bool.and_eq_true] at hall
    exact hall.1
  rw [hcs, parseOctave_cons, if_neg (by simpa using (isDigit_ne c hcd).1),
    if_pos hall, ← hcs, digitsToNat_repChars]

theorem parseOctave_intRepr (o : Int) :
    parseOctave (intRepr o).data = some o := by
  cases o with
  | ofNat m =>
    show parseOctave (Nat.repr m).data = some (m : Int)
    rw [natRepr_data, parseOctave_repChars]
  | negSucc m =>
    show parseOctave ("-" ++ Nat.repr (m + 1)).data = some (Int.negSucc m)
    have hdata : ("-" ++ Nat.repr (m + 1)).data = '-' :: repChars (m + 1) := by
      show '-' :: (Nat.repr (m + 1)).data = _
      rw [natRepr_data]
    rw [hdata, parseOctave_cons, if_pos rfl,
      if_pos ⟨repChars_ne_nil _, repChars_all_digit _⟩, digitsToNat_repChars]
    exact congrArg some (by rw [Int.negSucc_eq]; push_cast; ring)

theorem intRepr_head (o : Int) :
    ∃ d ds, (intRepr o).data = d :: ds ∧ (d = '-' ∨ d.isDigit = true) := by
  cases o with
  | ofNat m =>
    obtain ⟨c, cs, hcs⟩ : ∃ c cs, repChars m = c :: cs := by
      cases hr : repChars m with
      | nil => exact absurd hr (repChars_ne_nil m)
      | cons c cs => exact ⟨c, cs, rfl⟩
    refine ⟨c, cs, ?_, Or.inr ?_⟩
    · show (Nat.repr m).data = c :: cs
      rw [natRepr_data, hcs]
    · have hall := repChars_all_digit m
      rw [hcs] at hall
      simp only [List.all_cons, Bool.and_eq_true] at hall
      exact hall.1
  | negSucc m =>
    refine ⟨'-', repChars (m + 1), ?_, Or.inl rfl⟩
    show '-' :: (Nat.repr (m + 1)).data = _
    rw [natRepr_data]

theorem Pitch_from_str_cons (c : Char) (rest : List Char) :
    Pitch.from_str ⟨c :: rest⟩ =
      if isNoteLetter c then
        match parseOctave (noteSplit c rest).2 with
        | some octave =>
          (Note.from_str ⟨(noteSplit c rest).1⟩).map fun note =>
            Pitch.from_note note octave
        | none => none
      else none := rfl

theorem pitch_from_str_letter (c : Char) (n : Note) (o : Int)
    (hc : isNoteLetter c = true)
    (hn : Note.from_str ⟨[c]⟩ = some n) :
    Pitch.from_str (⟨[c]⟩ ++ intRepr o) = some (Pitch.from_note n o) := by
  obtain ⟨d, ds, hds, hdn⟩ := intRepr_head o
  have hno : ¬ (d = '#' ∨ d = 'b') := by
    rcases hdn with rfl | hdig
    · rintro (h | h) <;> exact absurd h (by decide)
    · rintro (rfl | rfl) <;> exact absurd hdig (by decide)
  have hrepr : (⟨[c]⟩ : String) ++ intRepr o = ⟨c :: (intRepr o).data⟩ := rfl
  rw [hrepr, show ((⟨c :: (intRepr o).data⟩ : String)) = ⟨c :: d :: ds⟩ by rw [hds],
    Pitch_from_str_cons, if_pos hc]
  have hsplit : noteSplit c (d :: ds) = ([c], d :: ds) := by
    show (if d = '#' ∨ d = 'b' then ([c, d], ds) else ([c], d :: ds)) = ([c], d :: ds)
    exact if_neg hno
  rw [hsplit, show d :: ds = (intRepr o).data from hds.symm, parseOctave_intRepr o]
  show (Note.from_str ⟨[c]⟩).map (fun note => Pitch.from_note note o) = _
  rw [hn]
  rfl

theorem pitch_from_str_flat (c : Char) (o : Int) (hc : isNoteLetter c = true) :
    Pitch.from_str (⟨[c, '♭']⟩ ++ intRepr o) = none := by
  have hrepr : (⟨[c, '♭']⟩ : String) ++ intRepr o =
      ⟨c :: '♭' :: (intRepr o).data⟩ := rfl
  rw [hrepr, Pitch_from_str_cons, if_pos hc]
  have hsplit : noteSplit c ('♭' :: (intRepr o).data) =
      ([c], '♭' :: (intRepr o).data) := by
    show (if '♭' = '#' ∨ '♭' = 'b' then ([c, '♭'], (intRepr o).data)
      else ([c], '♭' :: (intRepr o).data)) = ([c], '♭' :: (intRepr o).data)
    exact if_neg (by rintro (h | h) <;> exact absurd h (by decide))
  rw [hsplit, parseOctave_cons, if_neg (by decide)]
  rw [if_neg (by simp [List.all_cons])]

theorem pitch_str_reparse (n : Note) (o : Int) :
    Pitch.from_str (n.str ++ intRepr o) =
      if naturalNote n then some (Pitch.from_note n o) else none := by
  obtain ⟨⟨v, hv⟩⟩ := n
  interval_cases v
  · exact pitch_from_str_letter 'C' _ o (by decide) rfl
  · exact pitch_from_str_flat 'D' o (by decide)
  · exact pitch_from_str_letter 'D' _ o (by decide) rfl
  · exact pitch_from_str_flat 'E' o (by decide)
  · exact pitch_from_str_letter 'E' _ o (by decide) rfl
  · exact pitch_from_str_letter 'F' _ o (by decide) rfl
  · exact pitch_from_str_flat 'G' o (by decide)
  · exact pitch_from_str_letter 'G' _ o (by decide) rfl
  · exact pitch_from_str_flat 'A' o (by decide)
  · exact pitch_from_str_letter 'A' _ o (by decide) rfl
  · exact pitch_from_str_flat 'B' o (by decide)
  · exact pitch_from_str_letter 'B' _ o (by decide) rfl

theorem pitch_note_emod (p : Pitch) : p.note.toInt = p.val % 12 := by
  show ((p.val % 12).toNat : Int) = p.val % 12
  exact Int.toNat_of_nonneg (Int.emod_nonneg _ (by norm_num))

theorem pitch_reconstruct (p : Pitch) : p.note.toInt + 12 * p.octave = p.val := by
  rw [pitch_note_emod p]
  show p.val % 12 + 12 * Int.fdiv p.val OCTAVE = p.val
  rw [show (OCTAVE : Int) = 12 from rfl, Int.fdiv_eq_ediv _ (by norm_num)]
  exact Int.emod_add_ediv p.val 12

theorem pitch_from_note_self (p : Pitch) :
    Pitch.from_note p.note p.octave = p := by
  cases p with
  | mk v =>
    have h := pitch_reconstruct (Pitch.mk v)
    have hval : (Pitch.mk v).val = v := rfl
    rw [hval] at h
    show Pitch.mk ((Pitch.mk v).note.toInt + (Pitch.mk v).octave * OCTAVE) =
      Pitch.mk v
    rw [Pitch.mk.injEq, show (OCTAVE : Int) = 12 from rfl]
    omega

/-- C1 counterexample: `"C#1"` matches the pitch grammar and parses to the
pitch of value 13, but the code formats that pitch as `"D♭1"` with the
flat glyph U+266D, which `Pitch.from_str` does not accept, so the re-parse
returns `None` rather than an equal pitch. -/
theorem C1_counterexample :
    Pitch.from_str "C#1" = some ⟨13⟩ ∧
    Pitch.str ⟨13⟩ = "D♭1" ∧
    Pitch.from_str (Pitch.str ⟨13⟩) = none := by
  refine ⟨by decide, by decide, by decide⟩

/-- C1 (amended): for every string `s` matching the pitch grammar, if the
parsed pitch's class is a white key (its canonical name has no flat) the
format/re-parse round trip returns the same pitch value; for black-key
classes the canonical name contains the flat glyph and the re-parse
returns `None`. -/
theorem C1_pitch_roundtrip :
    ∀ (s : String) (p : Pitch), Pitch.from_str s = some p →
      Pitch.from_str (Pitch.str p) =
        if naturalNote p.note then some p else none := by
  intro s p _
  rw [show Pitch.str p = p.note.str ++ intRepr p.octave from rfl,
    pitch_str_reparse p.note p.octave, pitch_from_note_self p]

/-- C1 witness: the round trip at the concrete white-key input `"A4"`. -/
theorem C1_pitch_roundtrip_witness :
    Pitch.from_str "A4" = some ⟨57⟩ ∧
    Pitch.from_str (Pitch.str ⟨57⟩) =
      if naturalNote (Pitch.note ⟨57⟩) then some ⟨57⟩ else none :=
  ⟨by decide, C1_pitch_roundtrip "A4" ⟨57⟩ (by decide)⟩

end NotesPy
